import Mathlib

/-!
# Verification of the VectorStock search reconciler and subset selector

Shallow embedding of the two algorithmic components of the repository:

* `process_search_folders` (from `process-OptionB-search_results.py`):
  cross-source deduplication with first-occurrence-wins payload selection
  and provenance tracking.
* `analyze_and_create_subset` (from `prune-OptionB-search_results.py`):
  four-tier quota-constrained stratified subset selection.

Dictionaries are embedded as insertion-ordered association lists (Python
dicts preserve insertion order).  The seeded pseudorandom generator of the
Python `random` module is modelled by an explicit linear congruential
generator threaded through the computation; all theorems below hold for
every generator state, so nothing depends on the concrete generator.
-/

namespace VectorStock

open scoped List

/-! ## Reconciler (`process-OptionB-search_results.py`) -/

/-- One artwork record from a `search_results.json` batch.  `art_id` is
`artwork.get("art_id")` (absent field modelled as `none`); `payload`
stands for the rest of the record, opaque to the algorithm. -/
structure Artwork where
  art_id : Option Nat
  payload : Nat
deriving DecidableEq, Repr

/-- The dict `unique_artworks`: an insertion-ordered dict from art id to artwork. -/
abbrev Catalog := List (Nat × Artwork)

/-- The dict `art_id_to_folders`: an insertion-ordered dict from art id to the list
of folder names it appeared in. -/
abbrev ProvMap := List (Nat × List String)

/-- Dict lookup on an association list. -/
def lookupA {α : Type} : List (Nat × α) → Nat → Option α
  | [], _ => none
  | (i, a) :: rest, id => if i = id then some a else lookupA rest id

/-- Model of `if folder_name not in art_id_to_folders[art_id]:
art_id_to_folders[art_id].append(folder_name)` on a `defaultdict(list)`:
accessing a missing key creates it (here with the folder appended at once,
since a fresh empty list never contains the folder). -/
def provInsert : ProvMap → Nat → String → ProvMap
  | [], id, f => [(id, [f])]
  | (i, fs) :: rest, id, f =>
    if i = id then (i, if f ∈ fs then fs else fs ++ [f]) :: rest
    else (i, fs) :: provInsert rest id f

/-- Body of the inner loop of `process_search_folders` for one artwork. -/
def reconStep (folder : String) : Catalog × ProvMap → Artwork → Catalog × ProvMap
  | (cat, prov), a =>
    match a.art_id with
    | none => (cat, prov)
    | some id =>
      let cat' := if (lookupA cat id).isSome then cat else cat ++ [(id, a)]
      (cat', provInsert prov id folder)

/-- The function `process_search_folders`: fold over the ordered `(folder, batch)`
pairs (folder discovery and file loading are the external collaborator's
job; the Reconciler contract starts from the ordered sequence of
batches). -/
def process_search_folders (batches : List (String × List Artwork)) :
    Catalog × ProvMap :=
  batches.foldl (fun acc b => b.2.foldl (reconStep b.1) acc) ([], [])

/-- The same computation over the flattened stream of
`(folder, artwork)` pairs; used to state and prove the invariants. -/
def reconPairs (acc : Catalog × ProvMap) : List (String × Artwork) → Catalog × ProvMap
  | [] => acc
  | (f, a) :: rest => reconPairs (reconStep f acc a) rest

/-! ## Subset selector (`prune-OptionB-search_results.py`) -/

/-- One row of the art-id-mapping CSV.  The `search_folders` cell is a
semicolon-joined folder list; it is embedded pre-split, so a cell
containing `";"` (multi-folder row) corresponds to `folders.length ≥ 2`. -/
structure Row where
  art_id : Nat
  folders : List String
deriving DecidableEq, Repr

/-- One entry of `selected_artworks`. -/
structure Rec where
  art_id : Nat
  folders : List String
  reason : String
deriving DecidableEq, Repr

/-- Mutable state threaded through the selection tiers: the
`selected_artworks` list, `remaining_slots`, and the generator state. -/
structure St where
  sel : List Rec
  remaining : Nat
  rng : Nat
deriving DecidableEq, Repr

/-- Model of the seeded PRNG of Python's `random` module (an external
stdlib collaborator): a linear congruential generator.  Every theorem
below is independent of this concrete choice. -/
def lcg (s : Nat) : Nat := (s * 1103515245 + 12345) % 2147483648

/-- Model of `random.sample(xs, k)`: draw `k` elements without
replacement (`k ≤ xs.length` at every call site in the source). -/
def sampleR {α : Type} : Nat → Nat → List α → List α × Nat
  | st, 0, _ => ([], st)
  | st, _ + 1, [] => ([], st)
  | st, k + 1, x :: rest =>
    let xs := x :: rest
    let i := st % xs.length
    let p := sampleR (lcg st) k (xs.eraseIdx i)
    (xs.getD i x :: p.1, p.2)

/-- Model of `random.shuffle`: a full draw without replacement, i.e. a
permutation of the input. -/
def shuffleR {α : Type} (st : Nat) (xs : List α) : List α × Nat :=
  sampleR st xs.length xs

/-- The hardcoded folder list
`search_folders = [f"search_{i}" for i in range(1, 7)]`. -/
def searchFolderNames : List String :=
  ["search_1", "search_2", "search_3", "search_4", "search_5", "search_6"]

/-- A row is multi-folder iff its CSV cell contains `";"`. -/
def isMulti (r : Row) : Prop := 2 ≤ r.folders.length

instance (r : Row) : Decidable (isMulti r) := by unfold isMulti; infer_instance

/-- The folder of a single-folder row (the whole cell). -/
def folderOf (r : Row) : String := r.folders.headD ""

/-- The pool `single_folder_artworks[f]`: art ids of the single-folder rows for
folder `f`, in row order. -/
def singles (rows : List Row) (f : String) : List Nat :=
  (rows.filter (fun r => decide (¬ isMulti r ∧ folderOf r = f))).map (·.art_id)

/-- The set `selected_art_ids` (the Python set stays in sync with the list:
every list append is paired with a set add). -/
def selIds (sel : List Rec) : List Nat := sel.map (·.art_id)

/-- The list `available_artworks`: single-folder ids of `f` not yet selected. -/
def availIn (rows : List Row) (sel : List Rec) (f : String) : List Nat :=
  (singles rows f).filter (fun a => decide (a ∉ selIds sel))

/-- The counter `current_folder_counts[f]`: folder occurrences summed over the split
`search_folders` cells of the selected records. -/
def countFolder (sel : List Rec) (f : String) : Nat :=
  (sel.flatMap (·.folders)).count f

/-- Step 1: all multi-folder rows, tagged `"multi_folder"`. -/
def tier1sel (rows : List Row) : List Rec :=
  (rows.filter (fun r => decide (isMulti r))).map
    (fun r => ⟨r.art_id, r.folders, "multi_folder"⟩)

/-- The count `total_available = len(all_artworks)` (a set of ids). -/
def totalAvail (rows : List Row) : Nat := (rows.map (·.art_id)).dedup.length

/-- Shared shape of every drawing step: sample `toAdd` candidates, append
them as records, debit the slot budget, thread the generator state. -/
def addStep {α : Type} (mk : α → Rec) (s : St) (toAdd : Nat) (avail : List α) : St :=
  let p := sampleR s.rng toAdd avail
  ⟨s.sel ++ p.1.map mk, s.remaining - toAdd, p.2⟩

/-- Step 2 body for one folder: backfill up to `min_per_search`. -/
def step2 (rows : List Row) (minq : Nat) (acc : St) (f : String) : St :=
  let current := countFolder acc.sel f
  let needed := minq - current
  if needed = 0 ∨ acc.remaining = 0 then acc
  else
    let avail := availIn rows acc.sel f
    let toAdd := min needed (min avail.length acc.remaining)
    if toAdd = 0 then acc
    else addStep (fun a => ⟨a, [f], "min_requirement"⟩) acc toAdd avail

/-- Step 2: iterate the hardcoded folder list. -/
def tier2 (rows : List Row) (minq : Nat) (s : St) : St :=
  searchFolderNames.foldl (step2 rows minq) s

/-- Step 3 body for one folder.  `snap` is the selection at Step 3 entry
(the `folder_remaining` dict is computed once, before the loop), while
`avail` is recomputed from the live selection, exactly as in the source.
The float expression `int(remaining_slots * proportion)` with its
`% 1 > 0.5` bump is modelled by exact natural arithmetic
(floor plus round-half-up bump). -/
def step3 (rows : List Row) (snap : List Rec) (totalFR : Nat) (acc : St) (f : String) : St :=
  let ac := (availIn rows snap f).length
  if ac = 0 then acc
  else
    let prod := acc.remaining * ac
    let t := prod / totalFR + (if totalFR < 2 * (prod % totalFR) then 1 else 0)
    let avail := availIn rows acc.sel f
    let toAdd := min t (min avail.length acc.remaining)
    if toAdd = 0 then acc
    else addStep (fun a => ⟨a, [f], "proportional"⟩) acc toAdd avail

/-- Step 3: proportional fill.  `total_remaining` and
`total_folder_remaining` are the same sum over the six hardcoded
folders, so the source's two nested positivity guards collapse to one. -/
def tier3 (rows : List Row) (s : St) : St :=
  if s.remaining = 0 then s
  else
    let totalFR := (searchFolderNames.map (fun f => (availIn rows s.sel f).length)).sum
    if totalFR = 0 then s
    else searchFolderNames.foldl (step3 rows s.sel totalFR) s

/-- First-occurrence-order deduplication, skipping already-seen keys. -/
def firstDedupAux {α : Type} [DecidableEq α] (seen : List α) : List α → List α
  | [] => []
  | a :: rest =>
    if a ∈ seen then firstDedupAux seen rest
    else a :: firstDedupAux (a :: seen) rest

/-- First-occurrence-order deduplication (Python dict key order). -/
def firstDedup {α : Type} [DecidableEq α] (l : List α) : List α :=
  firstDedupAux [] l

/-- The keys of `single_folder_artworks`, in insertion order: folders of
single-folder rows, first occurrence first. -/
def singleFolderKeys (rows : List Row) : List String :=
  firstDedup ((rows.filter (fun r => decide (¬ isMulti r))).map folderOf)

/-- The pool `all_remaining_artworks` of Step 4: `(art_id, folder)` pairs over all
keys of `single_folder_artworks` (not just the six hardcoded names). -/
def tier4pool (rows : List Row) (sel : List Rec) : List (Nat × String) :=
  (singleFolderKeys rows).flatMap
    (fun f => (availIn rows sel f).map (fun a => (a, f)))

/-- Step 4: unconstrained fill to target.  When the pool is smaller than
`remaining_slots` the source prints a shortfall warning and adds
nothing. -/
def tier4 (rows : List Row) (s : St) : St :=
  if s.remaining = 0 then s
  else
    let pool := tier4pool rows s.sel
    if s.remaining ≤ pool.length then
      addStep (fun q => ⟨q.1, [q.2], "fill_to_target"⟩) s s.remaining pool
    else s

/-- The state at the end of Step 1 (`target` is already clamped). -/
def initSt (rows : List Row) (target seed : Nat) : St :=
  ⟨tier1sel rows, target - (tier1sel rows).length, seed⟩

/-- The function `analyze_and_create_subset(csv_file_path, target_size, min_per_search)`
with the seeded generator made explicit.  CSV reading is external; the
function consumes the parsed rows.  The clamp
`if total_available < target_size: target_size = total_available` is the
initial `min`; the Step 1 early return fires when `remaining_slots ≤ 0`. -/
def analyze_and_create_subset (rows : List Row)
    (target_size min_per_search seed : Nat) : List Rec :=
  let target := min target_size (totalAvail rows)
  let s0 := initSt rows target seed
  if s0.remaining = 0 then (shuffleR seed s0.sel).1.take target
  else
    let s4 := tier4 rows (tier3 rows (tier2 rows min_per_search s0))
    (shuffleR s4.rng s4.sel).1

/-- The ids of all rows, in row order. -/
def rowIds (rows : List Row) : List Nat := rows.map (·.art_id)

/-- Number of selected records whose provenance contains folder `f`
(the claim-side notion of "selected items attributable to a source"). -/
def selCountF (sel : List Rec) (f : String) : Nat :=
  (sel.filter (fun rec => decide (f ∈ rec.folders))).length

/-- Well-formedness of one selection record: its reason is one of the
four tags of the source, and a record carrying a multi-folder
provenance can only come from Step 1. -/
def RecOK (rec : Rec) : Prop :=
  rec.reason ∈ ["multi_folder", "min_requirement", "proportional", "fill_to_target"]
    ∧ (2 ≤ rec.folders.length → rec.reason = "multi_folder")

/-- Invariant threaded through the selection tiers: selected ids are
distinct, drawn from the input rows, the slot budget is conserved, and
every multi-folder row is already selected. -/
structure Inv (rows : List Row) (target : Nat) (s : St) : Prop where
  nodup : (selIds s.sel).Nodup
  subset : ∀ a ∈ selIds s.sel, a ∈ rowIds rows
  budget : s.remaining + s.sel.length = target
  multi_in : ∀ r ∈ rows, isMulti r → r.art_id ∈ selIds s.sel

/-! ## Lemmas about the sampling model -/

theorem getD_cons_eraseIdx_perm {α : Type} :
    ∀ (xs : List α) (i : Nat) (d : α), i < xs.length →
      (xs.getD i d :: xs.eraseIdx i).Perm xs := by
  intro xs
  induction xs with
  | nil => intro i d h; simp at h
  | cons x rest ih =>
    intro i d h
    cases i with
    | zero => simp [List.getD]
    | succ i =>
      have hi : i < rest.length := by simpa using h
      have hperm := ih i d hi
      simp only [List.getD_cons_succ, List.eraseIdx_cons_succ]
      exact (List.Perm.swap x _ _).trans (List.Perm.cons x hperm)

theorem sampleR_subperm {α : Type} :
    ∀ (k st : Nat) (xs : List α), (sampleR st k xs).1 <+~ xs := by
  intro k
  induction k with
  | zero => intro st xs; simp [sampleR]
  | succ k ih =>
    intro st xs
    cases xs with
    | nil => simp [sampleR]
    | cons x rest =>
      have hlen : st % (x :: rest).length < (x :: rest).length :=
        Nat.mod_lt _ (by simp)
      have h1 := ih (lcg st) ((x :: rest).eraseIdx (st % (x :: rest).length))
      have h2 := getD_cons_eraseIdx_perm (x :: rest) (st % (x :: rest).length) x hlen
      simp only [sampleR]
      exact ((List.subperm_cons _).2 h1).trans h2.subperm

theorem sampleR_length {α : Type} :
    ∀ (k st : Nat) (xs : List α), (sampleR st k xs).1.length = min k xs.length := by
  intro k
  induction k with
  | zero => intro st xs; simp [sampleR]
  | succ k ih =>
    intro st xs
    cases xs with
    | nil => simp [sampleR]
    | cons x rest =>
      have hlen : st % (rest.length + 1) < (x :: rest).length := by
        simpa using @Nat.mod_lt st (rest.length + 1) (Nat.succ_pos _)
      have herase : ((x :: rest).eraseIdx (st % (rest.length + 1))).length
          = rest.length := by
        have h2 := List.length_eraseIdx_add_one hlen
        have h3 : (x :: rest).length = rest.length + 1 := by simp
        omega
      simp only [sampleR, List.length_cons, ih, herase]
      omega

theorem sampleR_mem {α : Type} {a : α} {st k : Nat} {xs : List α}
    (h : a ∈ (sampleR st k xs).1) : a ∈ xs :=
  (sampleR_subperm k st xs).subset h

theorem subperm_nodup {α : Type} {l₁ l₂ : List α}
    (h : l₁ <+~ l₂) (hd : l₂.Nodup) : l₁.Nodup := by
  obtain ⟨l, hp, hs⟩ := h
  exact hp.nodup_iff.mp (hd.sublist hs)

theorem sampleR_nodup {α : Type} {st k : Nat} {xs : List α}
    (h : xs.Nodup) : (sampleR st k xs).1.Nodup :=
  subperm_nodup (sampleR_subperm k st xs) h

theorem shuffleR_perm {α : Type} (st : Nat) (xs : List α) :
    ((shuffleR st xs).1).Perm xs := by
  obtain ⟨l, hp, hs⟩ := sampleR_subperm xs.length st xs
  have hlen : (shuffleR st xs).1.length = xs.length := by
    simp [shuffleR, sampleR_length]
  have hl : l.length = xs.length := by
    have := hp.length_eq
    simp [shuffleR] at hlen
    omega
  have : l = xs := hs.eq_of_length hl
  subst this
  exact hp.symm

/-! ## Lemmas about the candidate pools -/

theorem mem_singles {rows : List Row} {f : String} {a : Nat} :
    a ∈ singles rows f ↔
      ∃ r, r ∈ rows ∧ ¬ isMulti r ∧ folderOf r = f ∧ r.art_id = a := by
  simp only [singles, List.mem_map, List.mem_filter, decide_eq_true_eq]
  constructor
  · rintro ⟨r, ⟨hr, hm, hf⟩, ha⟩
    exact ⟨r, hr, hm, hf, ha⟩
  · rintro ⟨r, hr, hm, hf, ha⟩
    exact ⟨r, ⟨hr, hm, hf⟩, ha⟩

theorem singles_sublist (rows : List Row) (f : String) :
    singles rows f <+ rowIds rows := by
  unfold singles rowIds
  exact (List.filter_sublist rows).map (·.art_id)

theorem singles_nodup {rows : List Row} (H : (rowIds rows).Nodup) (f : String) :
    (singles rows f).Nodup :=
  H.sublist (singles_sublist rows f)

theorem mem_availIn {rows : List Row} {sel : List Rec} {f : String} {a : Nat} :
    a ∈ availIn rows sel f ↔ a ∈ singles rows f ∧ a ∉ selIds sel := by
  simp [availIn]

theorem availIn_sublist (rows : List Row) (sel : List Rec) (f : String) :
    availIn rows sel f <+ singles rows f :=
  List.filter_sublist _

theorem availIn_nodup {rows : List Row} (H : (rowIds rows).Nodup)
    (sel : List Rec) (f : String) : (availIn rows sel f).Nodup :=
  (singles_nodup H f).sublist (availIn_sublist rows sel f)

theorem availIn_mem_rowIds {rows : List Row} {sel : List Rec} {f : String} {a : Nat}
    (h : a ∈ availIn rows sel f) : a ∈ rowIds rows :=
  (singles_sublist rows f).subset (mem_availIn.mp h).1

theorem availIn_not_selected {rows : List Row} {sel : List Rec} {f : String} {a : Nat}
    (h : a ∈ availIn rows sel f) : a ∉ selIds sel :=
  (mem_availIn.mp h).2

theorem singles_folder_eq {rows : List Row} (H : (rowIds rows).Nodup)
    {f g : String} {a : Nat} (hf : a ∈ singles rows f) (hg : a ∈ singles rows g) :
    f = g := by
  obtain ⟨r1, hr1, _, hfo1, ha1⟩ := mem_singles.mp hf
  obtain ⟨r2, hr2, _, hfo2, ha2⟩ := mem_singles.mp hg
  have hr : r1 = r2 :=
    List.inj_on_of_nodup_map H hr1 hr2 (by rw [ha1, ha2])
  rw [← hfo1, ← hfo2, hr]

theorem rowIds_nodup_iff {rows : List Row} :
    (rowIds rows).Nodup ↔ (rows.map (·.art_id)).Nodup := Iff.rfl

/-! ## Invariant preservation through the tiers -/

theorem subperm_map {α β : Type} (g : α → β) {l₁ l₂ : List α}
    (h : List.Subperm l₁ l₂) : List.Subperm (l₁.map g) (l₂.map g) := by
  obtain ⟨l, hp, hs⟩ := h
  exact ⟨l.map g, hp.map g, hs.map g⟩

theorem selIds_append (l1 l2 : List Rec) :
    selIds (l1 ++ l2) = selIds l1 ++ selIds l2 := by
  simp [selIds]

theorem addStep_inv {α : Type} {rows : List Row} {target : Nat}
    (mk : α → Rec) (aid : α → Nat) (hmk : ∀ a, (mk a).art_id = aid a)
    {s : St} (hs : Inv rows target s) (toAdd : Nat) (avail : List α)
    (hnd : (avail.map aid).Nodup)
    (hdis : ∀ a ∈ avail, aid a ∉ selIds s.sel)
    (hsub : ∀ a ∈ avail, aid a ∈ rowIds rows)
    (h1 : toAdd ≤ avail.length) (h2 : toAdd ≤ s.remaining) :
    Inv rows target (addStep mk s toAdd avail) := by
  have hchsp := sampleR_subperm toAdd s.rng avail
  have hch_mem : ∀ a ∈ (sampleR s.rng toAdd avail).1, a ∈ avail :=
    fun a ha => sampleR_mem ha
  have hchlen : (sampleR s.rng toAdd avail).1.length = toAdd := by
    rw [sampleR_length]; omega
  have hids : selIds ((sampleR s.rng toAdd avail).1.map mk)
      = (sampleR s.rng toAdd avail).1.map aid := by
    simp [selIds, hmk, Function.comp]
  simp only [addStep]
  constructor
  · show (selIds (s.sel ++ _)).Nodup
    rw [selIds_append, hids]
    rw [List.nodup_append]
    refine ⟨hs.nodup, subperm_nodup (subperm_map aid hchsp) hnd, ?_⟩
    intro a ha ha'
    obtain ⟨b, hb, hba⟩ := List.mem_map.mp ha'
    exact hdis b (hch_mem b hb) (hba ▸ ha)
  · intro a ha
    rw [selIds_append, List.mem_append, hids] at ha
    rcases ha with ha | ha
    · exact hs.subset a ha
    · obtain ⟨b, hb, hba⟩ := List.mem_map.mp ha
      exact hba ▸ hsub b (hch_mem b hb)
  · show s.remaining - toAdd + (s.sel ++ _).length = target
    rw [List.length_append, List.length_map, hchlen]
    have := hs.budget
    omega
  · intro r hr hm
    rw [selIds_append, List.mem_append]
    exact Or.inl (hs.multi_in r hr hm)

theorem drawFolder_inv {rows : List Row} {target : Nat}
    (H : (rowIds rows).Nodup) {s : St} (hs : Inv rows target s)
    (f reason : String) (toAdd : Nat)
    (h1 : toAdd ≤ (availIn rows s.sel f).length) (h2 : toAdd ≤ s.remaining) :
    Inv rows target
      (addStep (fun a => ⟨a, [f], reason⟩) s toAdd (availIn rows s.sel f)) :=
  addStep_inv _ (fun a => a) (fun _ => rfl) hs _ _
    (by simpa using availIn_nodup H s.sel f)
    (fun a ha => availIn_not_selected ha)
    (fun a ha => availIn_mem_rowIds ha)
    h1 h2

theorem step2_inv {rows : List Row} {target minq : Nat}
    (H : (rowIds rows).Nodup) {s : St} (f : String)
    (hs : Inv rows target s) : Inv rows target (step2 rows minq s f) := by
  simp only [step2]
  split_ifs with h1 h2
  · exact hs
  · exact hs
  · exact drawFolder_inv H hs f _ _
      ((Nat.min_le_right _ _).trans (Nat.min_le_left _ _))
      ((Nat.min_le_right _ _).trans (Nat.min_le_right _ _))

theorem step3_inv {rows : List Row} {target totalFR : Nat} {snap : List Rec}
    (H : (rowIds rows).Nodup) {s : St} (f : String)
    (hs : Inv rows target s) : Inv rows target (step3 rows snap totalFR s f) := by
  simp only [step3]
  split_ifs
  all_goals
    first
    | exact hs
    | exact drawFolder_inv H hs f _ _
        ((Nat.min_le_right _ _).trans (Nat.min_le_left _ _))
        ((Nat.min_le_right _ _).trans (Nat.min_le_right _ _))

theorem foldl_inv {β : Type} (P : St → Prop) {step : St → β → St}
    (hstep : ∀ s b, P s → P (step s b)) :
    ∀ (l : List β) (s : St), P s → P (l.foldl step s) := by
  intro l
  induction l with
  | nil => intro s0 hsP; exact hsP
  | cons b rest ih => intro s0 hsP; exact ih _ (hstep s0 b hsP)

theorem tier2_inv {rows : List Row} {target : Nat} (minq : Nat)
    (H : (rowIds rows).Nodup) {s : St}
    (hs : Inv rows target s) : Inv rows target (tier2 rows minq s) :=
  foldl_inv _ (fun _ f hsP => step2_inv H f hsP) searchFolderNames s hs

theorem tier3_inv {rows : List Row} {target : Nat}
    (H : (rowIds rows).Nodup) {s : St}
    (hs : Inv rows target s) : Inv rows target (tier3 rows s) := by
  simp only [tier3]
  split
  · exact hs
  · split
    · exact hs
    · exact foldl_inv _ (fun s f hsP => step3_inv H f hsP) searchFolderNames s hs

/-! ## The Step 4 pool -/

theorem mem_firstDedupAux {α : Type} [DecidableEq α] :
    ∀ (l seen : List α) (a : α),
      a ∈ firstDedupAux seen l ↔ a ∈ l ∧ a ∉ seen := by
  intro l
  induction l with
  | nil => intro seen a; simp [firstDedupAux]
  | cons b rest ih =>
    intro seen a
    simp only [firstDedupAux]
    split_ifs with hb
    · rw [ih]
      constructor
      · rintro ⟨h1, h2⟩; exact ⟨List.mem_cons_of_mem b h1, h2⟩
      · rintro ⟨h1, h2⟩
        rcases List.mem_cons.mp h1 with rfl | h1
        · exact absurd hb h2
        · exact ⟨h1, h2⟩
    · simp only [List.mem_cons, ih]
      constructor
      · rintro (rfl | ⟨h1, h2⟩)
        · exact ⟨Or.inl rfl, hb⟩
        · exact ⟨Or.inr h1, fun hsa => h2 (Or.inr hsa)⟩
      · rintro ⟨rfl | h1, h2⟩
        · exact Or.inl rfl
        · by_cases hab : a = b
          · exact Or.inl hab
          · exact Or.inr ⟨h1, fun h => h.elim hab h2⟩

theorem mem_firstDedup {α : Type} [DecidableEq α] :
    ∀ (l : List α) (a : α), a ∈ firstDedup l ↔ a ∈ l := by
  intro l a
  rw [firstDedup, mem_firstDedupAux]
  simp

theorem firstDedupAux_nodup {α : Type} [DecidableEq α] :
    ∀ (l seen : List α), (firstDedupAux seen l).Nodup := by
  intro l
  induction l with
  | nil => intro seen; simp [firstDedupAux]
  | cons b rest ih =>
    intro seen
    simp only [firstDedupAux]
    split_ifs with hb
    · exact ih seen
    · refine List.Nodup.cons ?_ (ih (b :: seen))
      intro hmem
      have := (mem_firstDedupAux _ _ b).mp hmem
      simp at this

theorem firstDedup_nodup {α : Type} [DecidableEq α] :
    ∀ (l : List α), (firstDedup l).Nodup :=
  fun l => firstDedupAux_nodup l []

theorem mem_tier4pool {rows : List Row} {sel : List Rec} {a : Nat} {f : String} :
    (a, f) ∈ tier4pool rows sel ↔
      f ∈ singleFolderKeys rows ∧ a ∈ availIn rows sel f := by
  simp only [tier4pool, List.mem_flatMap, List.mem_map]
  constructor
  · rintro ⟨g, hg, b, hb, hba⟩
    injection hba with h1 h2
    subst h1; subst h2
    exact ⟨hg, hb⟩
  · rintro ⟨hf, ha⟩
    exact ⟨f, hf, a, ha, rfl⟩

theorem tier4pool_ids {rows : List Row} {sel : List Rec} :
    (tier4pool rows sel).map Prod.fst
      = (singleFolderKeys rows).flatMap (fun f => availIn rows sel f) := by
  simp only [tier4pool]
  induction singleFolderKeys rows with
  | nil => rfl
  | cons g rest ih =>
    simp only [List.flatMap_cons, List.map_append, List.map_map, ih]
    congr 1
    simp [Function.comp_def]

theorem tier4pool_ids_nodup {rows : List Row} (H : (rowIds rows).Nodup)
    (sel : List Rec) : ((tier4pool rows sel).map Prod.fst).Nodup := by
  rw [tier4pool_ids, List.nodup_flatMap]
  constructor
  · intro f _; exact availIn_nodup H sel f
  · have hkeys : (singleFolderKeys rows).Pairwise (· ≠ ·) := firstDedup_nodup _
    exact hkeys.imp (fun hfg => by
      intro a haf hag
      exact hfg (singles_folder_eq H (mem_availIn.mp haf).1 (mem_availIn.mp hag).1))

/-- Every unselected row id appears in the Step 4 pool, provided the
multi-folder rows are all selected (the `Inv.multi_in` invariant). -/
theorem tier4pool_covers {rows : List Row} {sel : List Rec}
    (hmulti : ∀ r ∈ rows, isMulti r → r.art_id ∈ selIds sel) :
    ∀ r ∈ rows, r.art_id ∉ selIds sel →
      r.art_id ∈ (tier4pool rows sel).map Prod.fst := by
  intro r hr hnot
  have hsingle : ¬ isMulti r := fun hm => hnot (hmulti r hr hm)
  have hin : r.art_id ∈ singles rows (folderOf r) :=
    mem_singles.mpr ⟨r, hr, hsingle, rfl, rfl⟩
  have hkey : folderOf r ∈ singleFolderKeys rows := by
    rw [singleFolderKeys, mem_firstDedup]
    exact List.mem_map.mpr ⟨r, List.mem_filter.mpr ⟨hr, by simpa using hsingle⟩, rfl⟩
  have : (r.art_id, folderOf r) ∈ tier4pool rows sel :=
    mem_tier4pool.mpr ⟨hkey, mem_availIn.mpr ⟨hin, hnot⟩⟩
  exact List.mem_map.mpr ⟨_, this, rfl⟩

/-- Counting argument: because every multi-folder row is selected by
Step 1 and ids are distinct, the Step 4 pool always covers the remaining
slot count.  The shortfall branch of Step 4 is therefore dead code in a
full run. -/
theorem tier4pool_length_ge {rows : List Row} {target : Nat} {s : St}
    (H : (rowIds rows).Nodup) (htarget : target ≤ totalAvail rows)
    (hs : Inv rows target s) :
    s.remaining ≤ (tier4pool rows s.sel).length := by
  have hU : (rowIds rows).Nodup := H
  have hS : (selIds s.sel).Nodup := hs.nodup
  have hsplit := @List.length_eq_length_filter_add Nat (rowIds rows)
    (fun a => decide (a ∈ selIds s.sel))
  have hperm : ((rowIds rows).filter (fun a => decide (a ∈ selIds s.sel))).Perm
      (selIds s.sel) := by
    refine (List.perm_ext_iff_of_nodup (hU.filter _) hS).mpr ?_
    intro a
    simp only [List.mem_filter, decide_eq_true_eq]
    exact ⟨fun h => h.2, fun h => ⟨hs.subset a h, h⟩⟩
  have hsub2 : ((rowIds rows).filter (fun a => !decide (a ∈ selIds s.sel)))
      ⊆ (tier4pool rows s.sel).map Prod.fst := by
    intro a ha
    obtain ⟨haU, hanot⟩ := List.mem_filter.mp ha
    obtain ⟨r, hr, rfl⟩ := List.mem_map.mp haU
    refine tier4pool_covers hs.multi_in r hr ?_
    simpa using hanot
  have hlen2 := (List.Nodup.subperm (hU.filter _) hsub2).length_le
  have htot : totalAvail rows = (rowIds rows).length := by
    have hU' : (rows.map (·.art_id)).Nodup := hU
    simp only [totalAvail, rowIds]
    rw [List.dedup_eq_self.mpr hU']
  have hbud := hs.budget
  have hSl : (selIds s.sel).length = s.sel.length := List.length_map _ _
  have hmap : ((tier4pool rows s.sel).map Prod.fst).length
      = (tier4pool rows s.sel).length := List.length_map _ _
  have hpl := hperm.length_eq
  omega

theorem tier4_inv {rows : List Row} {target : Nat} {s : St}
    (H : (rowIds rows).Nodup) (hs : Inv rows target s) :
    Inv rows target (tier4 rows s) := by
  simp only [tier4]
  split_ifs with h1 h2
  · exact hs
  · refine addStep_inv _ Prod.fst (fun _ => rfl) hs _ _
      (tier4pool_ids_nodup H s.sel) ?_ ?_ h2 le_rfl
    · rintro ⟨a, f⟩ hq
      exact availIn_not_selected (mem_tier4pool.mp hq).2
    · rintro ⟨a, f⟩ hq
      exact availIn_mem_rowIds (mem_tier4pool.mp hq).2
  · exact hs

theorem tier4_remaining {rows : List Row} {target : Nat} {s : St}
    (H : (rowIds rows).Nodup) (htarget : target ≤ totalAvail rows)
    (hs : Inv rows target s) : (tier4 rows s).remaining = 0 := by
  have hge := tier4pool_length_ge H htarget hs
  simp only [tier4]
  split_ifs with h1
  · exact h1
  · simp [addStep]

/-! ## Pipeline-level lemmas -/

theorem selIds_tier1 (rows : List Row) :
    selIds (tier1sel rows)
      = (rows.filter (fun r => decide (isMulti r))).map (·.art_id) := by
  simp [selIds, tier1sel, List.map_map, Function.comp_def]

theorem tier1_ids_sublist (rows : List Row) :
    selIds (tier1sel rows) <+ rowIds rows := by
  rw [selIds_tier1]
  exact (List.filter_sublist rows).map (·.art_id)

theorem initSt_inv {rows : List Row} {target seed : Nat}
    (H : (rowIds rows).Nodup)
    (h : (initSt rows target seed).remaining ≠ 0) :
    Inv rows target (initSt rows target seed) := by
  have hub : (tier1sel rows).length < target := by
    have h' : target - (tier1sel rows).length ≠ 0 := h
    omega
  constructor
  · exact H.sublist (tier1_ids_sublist rows)
  · exact fun a ha => (tier1_ids_sublist rows).subset ha
  · show target - (tier1sel rows).length + (tier1sel rows).length = target
    omega
  · intro r hr hm
    show r.art_id ∈ selIds (tier1sel rows)
    rw [selIds_tier1]
    exact List.mem_map.mpr ⟨r, List.mem_filter.mpr ⟨hr, by simpa using hm⟩, rfl⟩

theorem analyze_main_state {rows : List Row} {t seed : Nat} (m : Nat)
    (H : (rowIds rows).Nodup)
    (h : (initSt rows (min t (totalAvail rows)) seed).remaining ≠ 0) :
    Inv rows (min t (totalAvail rows))
        (tier4 rows (tier3 rows (tier2 rows m (initSt rows (min t (totalAvail rows)) seed))))
      ∧ (tier4 rows (tier3 rows (tier2 rows m
          (initSt rows (min t (totalAvail rows)) seed)))).remaining = 0 := by
  have hinv0 := initSt_inv H h
  have hinv2 := tier2_inv m H hinv0
  have hinv3 := tier3_inv H hinv2
  exact ⟨tier4_inv H hinv3,
    tier4_remaining H (Nat.min_le_right _ _) hinv3⟩

/-- C6: for every input mapping with distinct item ids, the Selection
list has length `min target_size total`, i.e. `≤ target_size`, with
equality unless the number of distinct items is below `target_size`, in
which case the run proceeds without error and returns all items
(`target_size` clamped to the total). -/
theorem selection_size (rows : List Row) (t m seed : Nat)
    (H : (rowIds rows).Nodup) :
    (analyze_and_create_subset rows t m seed).length = min t (totalAvail rows) := by
  simp only [analyze_and_create_subset]
  by_cases h0 : (initSt rows (min t (totalAvail rows)) seed).remaining = 0
  · rw [if_pos h0]
    have hlen := (shuffleR_perm seed (initSt rows (min t (totalAvail rows)) seed).sel).length_eq
    have h0' : min t (totalAvail rows) - (tier1sel rows).length = 0 := h0
    have hsel : (initSt rows (min t (totalAvail rows)) seed).sel = tier1sel rows := rfl
    rw [List.length_take, hlen, hsel]
    omega
  · rw [if_neg h0]
    obtain ⟨hinv4, hrem⟩ := analyze_main_state m H h0
    have hbud := hinv4.budget
    have hlen := (shuffleR_perm
      (tier4 rows (tier3 rows (tier2 rows m (initSt rows (min t (totalAvail rows)) seed)))).rng
      (tier4 rows (tier3 rows (tier2 rows m (initSt rows (min t (totalAvail rows)) seed)))).sel).length_eq
    rw [hlen]
    omega

/-- C6 witness: a concrete run (4 distinct items, target 3) returns
exactly 3 records. -/
theorem selection_size_witness :
    (rowIds [⟨1, ["search_1"]⟩, ⟨2, ["search_1"]⟩, ⟨3, ["search_2"]⟩,
        ⟨4, ["search_1", "search_2"]⟩]).Nodup
      ∧ (analyze_and_create_subset
          [⟨1, ["search_1"]⟩, ⟨2, ["search_1"]⟩, ⟨3, ["search_2"]⟩,
           ⟨4, ["search_1", "search_2"]⟩] 3 1 42).length
        = min 3 (totalAvail
            [⟨1, ["search_1"]⟩, ⟨2, ["search_1"]⟩, ⟨3, ["search_2"]⟩,
             ⟨4, ["search_1", "search_2"]⟩]) :=
  ⟨by decide,
   selection_size [⟨1, ["search_1"]⟩, ⟨2, ["search_1"]⟩, ⟨3, ["search_2"]⟩,
     ⟨4, ["search_1", "search_2"]⟩] 3 1 42 (by decide)⟩

/-- C9: for every input mapping with distinct item ids, the Selection
list contains no repeated item id (items selected in an earlier tier are
never selected again later). -/
theorem no_duplicate_selection (rows : List Row) (t m seed : Nat)
    (H : (rowIds rows).Nodup) :
    (selIds (analyze_and_create_subset rows t m seed)).Nodup := by
  simp only [analyze_and_create_subset]
  by_cases h0 : (initSt rows (min t (totalAvail rows)) seed).remaining = 0
  · rw [if_pos h0]
    have hperm := (shuffleR_perm seed
      (initSt rows (min t (totalAvail rows)) seed).sel).map (·.art_id)
    have hnd : (selIds (initSt rows (min t (totalAvail rows)) seed).sel).Nodup :=
      H.sublist (tier1_ids_sublist rows)
    have hnd2 : (selIds (shuffleR seed
        (initSt rows (min t (totalAvail rows)) seed).sel).1).Nodup :=
      hperm.nodup_iff.mpr hnd
    have htake : selIds ((shuffleR seed
          (initSt rows (min t (totalAvail rows)) seed).sel).1.take (min t (totalAvail rows)))
        <+ selIds (shuffleR seed (initSt rows (min t (totalAvail rows)) seed).sel).1 := by
      simp only [selIds, List.map_take]
      exact List.take_sublist _ _
    exact hnd2.sublist htake
  · rw [if_neg h0]
    obtain ⟨hinv4, _⟩ := analyze_main_state m H h0
    have hperm := (shuffleR_perm
      (tier4 rows (tier3 rows (tier2 rows m (initSt rows (min t (totalAvail rows)) seed)))).rng
      (tier4 rows (tier3 rows (tier2 rows m (initSt rows (min t (totalAvail rows)) seed)))).sel).map (·.art_id)
    exact hperm.nodup_iff.mpr hinv4.nodup

/-- C9 witness: a concrete run yields pairwise distinct selected ids. -/
theorem no_duplicate_selection_witness :
    (rowIds [⟨5, ["search_1"]⟩, ⟨6, ["search_2"]⟩, ⟨7, ["search_1", "search_2"]⟩]).Nodup
      ∧ (selIds (analyze_and_create_subset
          [⟨5, ["search_1"]⟩, ⟨6, ["search_2"]⟩, ⟨7, ["search_1", "search_2"]⟩]
          3 1 7)).Nodup :=
  ⟨by decide,
   no_duplicate_selection
     [⟨5, ["search_1"]⟩, ⟨6, ["search_2"]⟩, ⟨7, ["search_1", "search_2"]⟩]
     3 1 7 (by decide)⟩

/-! ## Selection reasons -/

theorem recsOK_addStep {α : Type} (mk : α → Rec) (hmk : ∀ a, RecOK (mk a))
    {s : St} (toAdd : Nat) (avail : List α)
    (hsel : ∀ rec ∈ s.sel, RecOK rec) :
    ∀ rec ∈ (addStep mk s toAdd avail).sel, RecOK rec := by
  intro rec hrec
  simp only [addStep, List.mem_append] at hrec
  rcases hrec with h | h
  · exact hsel rec h
  · obtain ⟨a, _, rfl⟩ := List.mem_map.mp h
    exact hmk a

theorem recsOK_step2 {rows : List Row} {minq : Nat} {s : St} (f : String)
    (hsel : ∀ rec ∈ s.sel, RecOK rec) :
    ∀ rec ∈ (step2 rows minq s f).sel, RecOK rec := by
  simp only [step2]
  split_ifs
  · exact hsel
  · exact hsel
  · exact recsOK_addStep _ (fun a => ⟨by simp, by simp⟩) _ _ hsel

theorem recsOK_step3 {rows : List Row} {snap : List Rec} {totalFR : Nat}
    {s : St} (f : String) (hsel : ∀ rec ∈ s.sel, RecOK rec) :
    ∀ rec ∈ (step3 rows snap totalFR s f).sel, RecOK rec := by
  simp only [step3]
  split_ifs
  all_goals
    first
    | exact hsel
    | exact recsOK_addStep _ (fun a => ⟨by simp, by simp⟩) _ _ hsel

theorem recsOK_tier4 {rows : List Row} {s : St}
    (hsel : ∀ rec ∈ s.sel, RecOK rec) :
    ∀ rec ∈ (tier4 rows s).sel, RecOK rec := by
  simp only [tier4]
  split_ifs
  · exact hsel
  · exact recsOK_addStep _ (fun a => ⟨by simp, by simp⟩) _ _ hsel
  · exact hsel

theorem recsOK_tier1 (rows : List Row) :
    ∀ rec ∈ tier1sel rows, RecOK rec := by
  intro rec hrec
  simp only [tier1sel, List.mem_map] at hrec
  obtain ⟨r, _, rfl⟩ := hrec
  exact ⟨by simp, fun _ => rfl⟩

/-- C2 (amended): every record of the Selection carries a reason drawn
from the code's four tags (Tier 1 uses the literal `"multi_folder"`, not
the spec's `"multi_source"`), and every record whose stored provenance
has two or more folders is tagged `"multi_folder"`. -/
theorem selection_reasons (rows : List Row) (t m seed : Nat) (rec : Rec)
    (h : rec ∈ analyze_and_create_subset rows t m seed) :
    rec.reason ∈ ["multi_folder", "min_requirement", "proportional", "fill_to_target"]
      ∧ (2 ≤ rec.folders.length → rec.reason = "multi_folder") := by
  have main : ∀ rec ∈ analyze_and_create_subset rows t m seed, RecOK rec := by
    simp only [analyze_and_create_subset]
    by_cases h0 : (initSt rows (min t (totalAvail rows)) seed).remaining = 0
    · rw [if_pos h0]
      intro rec hrec
      have h1 : rec ∈ (shuffleR seed (initSt rows (min t (totalAvail rows)) seed).sel).1 :=
        List.mem_of_mem_take hrec
      have h2 : rec ∈ (initSt rows (min t (totalAvail rows)) seed).sel :=
        (shuffleR_perm _ _).mem_iff.mp h1
      exact recsOK_tier1 rows rec h2
    · rw [if_neg h0]
      intro rec hrec
      have h2 := (shuffleR_perm _ _).mem_iff.mp hrec
      have hsel0 : ∀ r0 ∈ (initSt rows (min t (totalAvail rows)) seed).sel, RecOK r0 :=
        recsOK_tier1 rows
      have hsel2 : ∀ r0 ∈ (tier2 rows m (initSt rows (min t (totalAvail rows)) seed)).sel,
          RecOK r0 := by
        refine foldl_inv (fun s0 => ∀ r0 ∈ s0.sel, RecOK r0) ?_ _ _ hsel0
        exact fun s0 f hp => recsOK_step2 f hp
      have hsel3 : ∀ r0 ∈ (tier3 rows (tier2 rows m
          (initSt rows (min t (totalAvail rows)) seed))).sel, RecOK r0 := by
        simp only [tier3]
        split_ifs
        · exact hsel2
        · exact hsel2
        · refine foldl_inv (fun s0 => ∀ r0 ∈ s0.sel, RecOK r0) ?_ _ _ hsel2
          exact fun s0 f hp => recsOK_step3 f hp
      exact recsOK_tier4 hsel3 rec h2
  exact main rec h

/-- C2 witness: a concrete multi-folder item is selected with reason
`"multi_folder"`, which satisfies the amended tag set. -/
theorem selection_reasons_witness :
    (⟨1, ["search_1", "search_2"], "multi_folder"⟩ : Rec)
        ∈ analyze_and_create_subset [⟨1, ["search_1", "search_2"]⟩] 1 0 0
      ∧ ((⟨1, ["search_1", "search_2"], "multi_folder"⟩ : Rec).reason
            ∈ ["multi_folder", "min_requirement", "proportional", "fill_to_target"]
          ∧ (2 ≤ (⟨1, ["search_1", "search_2"], "multi_folder"⟩ : Rec).folders.length →
              (⟨1, ["search_1", "search_2"], "multi_folder"⟩ : Rec).reason = "multi_folder")) :=
  ⟨by decide,
   selection_reasons [⟨1, ["search_1", "search_2"]⟩] 1 0 0
     ⟨1, ["search_1", "search_2"], "multi_folder"⟩ (by decide)⟩

/-- C2 counterexample: the claim requires every reason to lie in
`{multi_source, min_requirement, proportional, fill_to_target}`, but a
run with one multi-folder item produces the reason `"multi_folder"`,
which is not in that set (the source tags Tier 1 records
`"multi_folder"`). -/
theorem selection_reasons_cex :
    (analyze_and_create_subset [⟨1, ["search_1", "search_2"]⟩] 1 0 0).map (·.reason)
        = ["multi_folder"]
      ∧ "multi_folder"
          ∉ ["multi_source", "min_requirement", "proportional", "fill_to_target"] := by
  decide

/-! ## Reproducibility, validation, Step 4 shortfall -/

/-- C8: the selector is a pure function of the rows, the sizes and the
seed: two runs with the same seed, the same input mapping (and hence the
same fixed source-iteration order) return identical Selection lists. -/
theorem reproducibility (rows rows' : List Row) (t m seed seed' : Nat)
    (hrows : rows = rows') (hseed : seed = seed') :
    analyze_and_create_subset rows t m seed
      = analyze_and_create_subset rows' t m seed' := by
  subst hrows; subst hseed; rfl

/-- C8 witness: a concrete pair of identical runs. -/
theorem reproducibility_witness :
    analyze_and_create_subset [⟨1, ["search_1"]⟩, ⟨2, ["search_2"]⟩] 2 1 9
      = analyze_and_create_subset [⟨1, ["search_1"]⟩, ⟨2, ["search_2"]⟩] 2 1 9 :=
  reproducibility [⟨1, ["search_1"]⟩, ⟨2, ["search_2"]⟩]
    [⟨1, ["search_1"]⟩, ⟨2, ["search_2"]⟩] 2 1 9 9 rfl rfl

/-- C4 counterexample: the claim requires a call with non-positive
`target_size` to surface a validation error, but the source performs no
validation: the call with `target_size = 0` proceeds normally and
returns a Selection (the empty list) — the Step 1 early return fires
and truncates to zero records. -/
theorem nonpositive_target_cex :
    analyze_and_create_subset [⟨1, ["search_1"]⟩] 0 10 0 = [] := by
  decide

/-- C4 (amended): no validation of `target_size` exists; every call with
`target_size = 0` (the non-positive value expressible in the clamped
domain) silently returns the empty Selection instead of an error. -/
theorem nonpositive_target_returns_empty (rows : List Row) (m seed : Nat) :
    analyze_and_create_subset rows 0 m seed = [] := by
  simp only [analyze_and_create_subset, Nat.zero_min, Nat.zero_sub, initSt]
  simp

/-- C1 counterexample: at a Step 4 state where slots remain
(`remaining = 2`) and the still-unselected pool is strictly smaller
(one item), the claim requires the selector to add every still-unselected
item; instead Step 4 adds nothing — item 1 stays unselected. -/
theorem tier4_shortfall_cex :
    (tier4pool [⟨1, ["search_1"]⟩] ([] : List Rec)).length
        < (⟨[], 2, 0⟩ : St).remaining
      ∧ ((1 : Nat), "search_1") ∈ tier4pool [⟨1, ["search_1"]⟩] ([] : List Rec)
      ∧ (1 : Nat) ∉ selIds (tier4 [⟨1, ["search_1"]⟩] ⟨[], 2, 0⟩).sel := by
  decide

/-- C1 (amended): whenever Step 4 runs with a still-unselected pool
strictly smaller than the remaining slot count, it only reports the
shortfall and returns the state unchanged — the remaining items are left
out, not selected.  (By `tier4pool_length_ge` this situation never
arises in a full run over distinct ids: the pool always covers the
remaining slots.) -/
theorem tier4_shortfall_adds_nothing (rows : List Row) (s : St)
    (h : (tier4pool rows s.sel).length < s.remaining) :
    tier4 rows s = s := by
  simp only [tier4]
  split_ifs with h1 h2
  · rfl
  · omega
  · rfl

/-- C1 witness: a concrete shortfall state is returned unchanged. -/
theorem tier4_shortfall_adds_nothing_witness :
    tier4 [⟨3, ["search_2"]⟩] ⟨[], 5, 11⟩ = ⟨[], 5, 11⟩ :=
  tier4_shortfall_adds_nothing [⟨3, ["search_2"]⟩] ⟨[], 5, 11⟩ (by decide)

/-! ## Step 2 quota analysis -/

theorem countFolder_append (l1 l2 : List Rec) (f : String) :
    countFolder (l1 ++ l2) f = countFolder l1 f + countFolder l2 f := by
  simp [countFolder, List.count_append]

theorem countFolder_mkRecs (ids : List Nat) (g reason f : String) :
    countFolder (ids.map (fun a => ⟨a, [g], reason⟩)) f
      = if g = f then ids.length else 0 := by
  induction ids with
  | nil => simp [countFolder]
  | cons a rest ih =>
    have : (a :: rest).map (fun a => (⟨a, [g], reason⟩ : Rec))
        = [(⟨a, [g], reason⟩ : Rec)] ++ rest.map (fun a => ⟨a, [g], reason⟩) := by simp
    rw [this, countFolder_append, ih]
    simp only [countFolder, List.flatMap_cons, List.flatMap_nil, List.append_nil]
    by_cases hgf : g = f
    · subst hgf; simp [List.count_cons]; omega
    · simp [List.count_cons, List.count_nil, hgf, Ne.symm hgf]

theorem countFolder_eq_zero_of_shape {ext : List Rec} {g f : String}
    (hshape : ∀ rec ∈ ext, rec.folders = [g]) (hgf : g ≠ f) :
    countFolder ext f = 0 := by
  induction ext with
  | nil => simp [countFolder]
  | cons rec rest ih =>
    have h1 : rec.folders = [g] := hshape rec (List.mem_cons_self _ _)
    have : (rec :: rest) = [rec] ++ rest := by simp
    rw [this, countFolder_append,
      ih (fun r hr => hshape r (List.mem_cons_of_mem rec hr))]
    simp [countFolder, h1, List.count_cons, hgf, Ne.symm hgf]

theorem availIn_append_other {rows : List Row} {sel : List Rec}
    {new : List Rec} {f : String}
    (hnew : ∀ a ∈ selIds new, a ∉ singles rows f) :
    availIn rows (sel ++ new) f = availIn rows sel f := by
  unfold availIn
  refine List.filter_congr ?_
  intro a ha
  have hanew : a ∉ selIds new := fun hmem => hnew a hmem ha
  simp only [decide_eq_decide, selIds_append, List.mem_append]
  constructor
  · intro h hs; exact h (Or.inl hs)
  · rintro h (hs | hs)
    · exact h hs
    · exact hanew hs

/-- Full behavioural specification of one Step 2 folder iteration, as
needed by the quota argument. -/
theorem step2_spec (rows : List Row) (minq : Nat) (s : St) (g : String) :
    ∃ (toAdd : Nat) (ext : List Rec),
      (step2 rows minq s g).sel = s.sel ++ ext
        ∧ (step2 rows minq s g).remaining = s.remaining - toAdd
        ∧ toAdd ≤ minq - countFolder s.sel g
        ∧ (∀ rec ∈ ext, rec.folders = [g]
            ∧ rec.art_id ∈ availIn rows s.sel g) := by
  simp only [step2]
  split_ifs with h1 h2
  · exact ⟨0, [], by simp, by simp, by omega, by simp⟩
  · exact ⟨0, [], by simp, by simp, by omega, by simp⟩
  · refine ⟨min (minq - countFolder s.sel g)
        (min (availIn rows s.sel g).length s.remaining),
      ((sampleR s.rng (min (minq - countFolder s.sel g)
          (min (availIn rows s.sel g).length s.remaining))
        (availIn rows s.sel g)).1).map
        (fun a => ⟨a, [g], "min_requirement"⟩),
      rfl, rfl, Nat.min_le_left _ _, ?_⟩
    intro rec hrec
    obtain ⟨a, ha, rfl⟩ := List.mem_map.mp hrec
    exact ⟨rfl, sampleR_mem ha⟩

theorem countFolder_le_step2 (rows : List Row) (minq : Nat) (s : St)
    (g f : String) :
    countFolder s.sel f ≤ countFolder (step2 rows minq s g).sel f := by
  obtain ⟨toAdd, ext, hsel, -, -, -⟩ := step2_spec rows minq s g
  rw [hsel, countFolder_append]
  omega

theorem countFolder_le_tier2_fold (rows : List Row) (minq : Nat) (f : String) :
    ∀ (L : List String) (s : St),
      countFolder s.sel f ≤ countFolder (L.foldl (step2 rows minq) s).sel f := by
  intro L
  induction L with
  | nil => intro s; exact le_rfl
  | cons g tail ih =>
    intro s
    exact (countFolder_le_step2 rows minq s g f).trans (ih (step2 rows minq s g))

/-- When the backfill for folder `g` is still needed and both the pool
and the budget cover it, Step 2 tops the folder's counter up to exactly
`minq`. -/
theorem step2_spec_exact (rows : List Row) (minq : Nat) (s : St) (g : String)
    (hneed : minq - countFolder s.sel g ≠ 0)
    (hrem : minq - countFolder s.sel g ≤ s.remaining)
    (hava : minq - countFolder s.sel g ≤ (availIn rows s.sel g).length) :
    countFolder (step2 rows minq s g).sel g = minq := by
  have hc1 : ¬(minq - countFolder s.sel g = 0 ∨ s.remaining = 0) := by
    push_neg
    omega
  have htoAdd : min (minq - countFolder s.sel g)
      (min (availIn rows s.sel g).length s.remaining)
      = minq - countFolder s.sel g := by omega
  simp only [step2]
  rw [if_neg hc1, htoAdd, if_neg hneed]
  simp only [addStep]
  rw [countFolder_append]
  have hchlen : ((sampleR s.rng (minq - countFolder s.sel g)
      (availIn rows s.sel g)).1).length = minq - countFolder s.sel g := by
    rw [sampleR_length]; omega
  have hcm := countFolder_mkRecs
    ((sampleR s.rng (minq - countFolder s.sel g) (availIn rows s.sel g)).1)
    g "min_requirement" g
  rw [if_pos rfl] at hcm
  rw [hcm, hchlen]
  omega

/-- Core induction for the Step 2 quota property: if entering the folder
loop the pool for `f` holds at least `minq` candidates and the remaining
budget covers the total backfill demand of the folders still to process,
then after the loop folder `f` counts at least `minq`. -/
theorem tier2_go {rows : List Row} {minq : Nat} (H : (rowIds rows).Nodup)
    (entrySel : List Rec) (f : String)
    (hava : minq ≤ (availIn rows entrySel f).length) :
    ∀ (L : List String), f ∈ L →
      ∀ (s : St),
        (∃ ext, s.sel = entrySel ++ ext) →
        countFolder s.sel f = countFolder entrySel f →
        availIn rows s.sel f = availIn rows entrySel f →
        (L.map (fun g => minq - countFolder entrySel g)).sum ≤ s.remaining →
        minq ≤ countFolder (L.foldl (step2 rows minq) s).sel f := by
  intro L
  induction L with
  | nil => intro hf; simp at hf
  | cons g tail ih =>
    intro hf s hext hcount havail hbud
    rw [List.foldl_cons]
    simp only [List.map_cons, List.sum_cons] at hbud
    by_cases hgf : g = f
    · subst hgf
      by_cases hneed : minq - countFolder s.sel g = 0
      · have h1 : minq ≤ countFolder s.sel g := by omega
        exact h1.trans ((countFolder_le_step2 rows minq s g g).trans
          (countFolder_le_tier2_fold rows minq g tail _))
      · have hrem : minq - countFolder s.sel g ≤ s.remaining := by
          rw [hcount] at hneed ⊢
          omega
        have hava' : minq - countFolder s.sel g ≤ (availIn rows s.sel g).length := by
          rw [havail, hcount]
          omega
        have hexact := step2_spec_exact rows minq s g hneed hrem hava'
        have h2 := countFolder_le_tier2_fold rows minq g tail (step2 rows minq s g)
        omega
    · obtain ⟨toAdd, extg, hsel', hrem', htle, hshape⟩ := step2_spec rows minq s g
      obtain ⟨ext, hexteq⟩ := hext
      have hmono : countFolder entrySel g ≤ countFolder s.sel g := by
        rw [hexteq, countFolder_append]; omega
      refine ih ((List.mem_cons.mp hf).resolve_left (fun h => hgf h.symm))
        (step2 rows minq s g)
        ⟨ext ++ extg, by rw [hsel', hexteq, List.append_assoc]⟩ ?_ ?_ ?_
      · rw [hsel', countFolder_append,
          countFolder_eq_zero_of_shape (fun rec hr => (hshape rec hr).1) hgf,
          hcount]
        omega
      · rw [hsel']
        rw [availIn_append_other, havail]
        intro a ha hsf
        obtain ⟨rec, hrec, hreca⟩ := List.mem_map.mp ha
        have hag : rec.art_id ∈ availIn rows s.sel g := (hshape rec hrec).2
        have hag' : rec.art_id ∈ singles rows g := (mem_availIn.mp hag).1
        exact hgf (singles_folder_eq H hag' (hreca ▸ hsf))
      · rw [hrem']
        omega

/-- With duplicate-free provenance lists, the per-occurrence counter the
code maintains equals the number of selected records whose provenance
contains the folder. -/
theorem countFolder_eq_selCountF (sel : List Rec) (f : String)
    (h : ∀ rec ∈ sel, rec.folders.Nodup) :
    countFolder sel f = selCountF sel f := by
  induction sel with
  | nil => simp [countFolder, selCountF]
  | cons rec rest ih =>
    have hrec := h rec (List.mem_cons_self _ _)
    have hrest := ih (fun r hr => h r (List.mem_cons_of_mem rec hr))
    simp only [countFolder, selCountF, List.flatMap_cons, List.count_append,
      List.filter_cons] at *
    by_cases hf : f ∈ rec.folders
    · rw [List.count_eq_one_of_mem hrec hf]
      simp [hf, hrest]
      omega
    · rw [List.count_eq_zero.mpr hf]
      simp [hf, hrest]

theorem foldersNodup_step2 (rows : List Row) (minq : Nat) (s : St) (g : String)
    (h : ∀ rec ∈ s.sel, rec.folders.Nodup) :
    ∀ rec ∈ (step2 rows minq s g).sel, rec.folders.Nodup := by
  obtain ⟨toAdd, extg, hsel', -, -, hshape⟩ := step2_spec rows minq s g
  rw [hsel']
  intro rec hr
  rcases List.mem_append.mp hr with hr | hr
  · exact h rec hr
  · rw [(hshape rec hr).1]
    simp

theorem foldersNodup_tier1 {rows : List Row}
    (hProv : ∀ r ∈ rows, r.folders.Nodup) :
    ∀ rec ∈ tier1sel rows, rec.folders.Nodup := by
  intro rec hr
  obtain ⟨r, hr', rfl⟩ := List.mem_map.mp hr
  exact hProv r (List.mem_of_mem_filter hr')

/-- C3 (amended): for every folder `f` of the hardcoded list
`search_1 … search_6` (sources outside this list are skipped by
Tier 2), if at least `min_per_search` unselected single-folder
candidates for `f` exist at Tier 2 entry and the remaining budget covers
the total Tier 2 backfill demand, then after Tier 2 at least
`min_per_search` selected records carry `f` in their provenance. -/
theorem tier2_min_quota (rows : List Row) (t m seed : Nat) (f : String)
    (H : (rowIds rows).Nodup)
    (hProv : ∀ r ∈ rows, r.folders.Nodup)
    (hf : f ∈ searchFolderNames)
    (hava : m ≤ (availIn rows (tier1sel rows) f).length)
    (hbud : (searchFolderNames.map
        (fun g => m - countFolder (tier1sel rows) g)).sum
      ≤ min t (totalAvail rows) - (tier1sel rows).length) :
    m ≤ selCountF
        (tier2 rows m (initSt rows (min t (totalAvail rows)) seed)).sel f := by
  have hmain := tier2_go H (tier1sel rows) f hava searchFolderNames hf
    (initSt rows (min t (totalAvail rows)) seed)
    ⟨[], (List.append_nil _).symm⟩ rfl rfl hbud
  have hfn : ∀ rec ∈ (tier2 rows m
      (initSt rows (min t (totalAvail rows)) seed)).sel, rec.folders.Nodup := by
    refine foldl_inv (fun s0 => ∀ rec ∈ s0.sel, rec.folders.Nodup) ?_ _ _
      (foldersNodup_tier1 hProv)
    exact fun s0 g hp => foldersNodup_step2 rows m s0 g hp
  rw [← countFolder_eq_selCountF _ f hfn]
  exact hmain

/-- C3 witness: six single-folder rows, one per hardcoded folder, with
`min_per_search = 1` and budget 6: folder `search_1` reaches its
quota after Tier 2. -/
theorem tier2_min_quota_witness :
    (1 : Nat) ≤ selCountF
        (tier2 [⟨1, ["search_1"]⟩, ⟨2, ["search_2"]⟩, ⟨3, ["search_3"]⟩,
                ⟨4, ["search_4"]⟩, ⟨5, ["search_5"]⟩, ⟨6, ["search_6"]⟩] 1
          (initSt [⟨1, ["search_1"]⟩, ⟨2, ["search_2"]⟩, ⟨3, ["search_3"]⟩,
                   ⟨4, ["search_4"]⟩, ⟨5, ["search_5"]⟩, ⟨6, ["search_6"]⟩]
            (min 6 (totalAvail [⟨1, ["search_1"]⟩, ⟨2, ["search_2"]⟩,
              ⟨3, ["search_3"]⟩, ⟨4, ["search_4"]⟩, ⟨5, ["search_5"]⟩,
              ⟨6, ["search_6"]⟩])) 0)).sel "search_1" :=
  tier2_min_quota
    [⟨1, ["search_1"]⟩, ⟨2, ["search_2"]⟩, ⟨3, ["search_3"]⟩,
     ⟨4, ["search_4"]⟩, ⟨5, ["search_5"]⟩, ⟨6, ["search_6"]⟩]
    6 1 0 "search_1" (by decide) (by decide) (by decide) (by decide) (by decide)

/-- C3 counterexample: the claim quantifies over every source named in
the provenance map, but Tier 2 iterates only the hardcoded
`search_1 … search_6`.  For source `search_7` one single-source
candidate exists (`m = 1` candidates), the remaining budget is 1, yet
after Tier 2 no selected record carries `search_7`. -/
theorem tier2_min_quota_cex :
    (availIn [⟨1, ["search_7"]⟩] (tier1sel [⟨1, ["search_7"]⟩]) "search_7").length = 1
      ∧ (initSt [⟨1, ["search_7"]⟩]
          (min 1 (totalAvail [⟨1, ["search_7"]⟩])) 0).remaining = 1
      ∧ selCountF
          (tier2 [⟨1, ["search_7"]⟩] 1
            (initSt [⟨1, ["search_7"]⟩]
              (min 1 (totalAvail [⟨1, ["search_7"]⟩])) 0)).sel "search_7" = 0 := by
  decide

/-! ## Reconciler lemmas -/

theorem reconPairs_append (l1 l2 : List (String × Artwork)) :
    ∀ acc, reconPairs acc (l1 ++ l2) = reconPairs (reconPairs acc l1) l2 := by
  induction l1 with
  | nil => intro acc; rfl
  | cons p rest ih =>
    intro acc
    obtain ⟨f, a⟩ := p
    simp only [List.cons_append, reconPairs]
    exact ih _

theorem foldl_reconStep_eq (fname : String) :
    ∀ (l : List Artwork) (acc : Catalog × ProvMap),
      l.foldl (reconStep fname) acc
        = reconPairs acc (l.map (fun a => (fname, a))) := by
  intro l
  induction l with
  | nil => intro acc; rfl
  | cons a rest ih =>
    intro acc
    simp only [List.foldl_cons, List.map_cons, reconPairs]
    exact ih _

theorem process_eq_pairs (bs : List (String × List Artwork)) :
    process_search_folders bs
      = reconPairs ([], [])
          (bs.flatMap (fun b => b.2.map (fun a => (b.1, a)))) := by
  suffices h : ∀ (bs : List (String × List Artwork)) (acc : Catalog × ProvMap),
      bs.foldl (fun acc b => b.2.foldl (reconStep b.1) acc) acc
        = reconPairs acc (bs.flatMap (fun b => b.2.map (fun a => (b.1, a)))) by
    exact h bs ([], [])
  intro bs
  induction bs with
  | nil => intro acc; rfl
  | cons b rest ih =>
    intro acc
    simp only [List.foldl_cons, List.flatMap_cons, reconPairs_append]
    rw [← foldl_reconStep_eq b.1 b.2 acc]
    exact ih _

theorem lookupA_append_of_isSome {α : Type} {l1 : List (Nat × α)} {id : Nat}
    {x : α} (h : lookupA l1 id = some x) (l2 : List (Nat × α)) :
    lookupA (l1 ++ l2) id = some x := by
  induction l1 with
  | nil => simp [lookupA] at h
  | cons p rest ih =>
    obtain ⟨i, a⟩ := p
    simp only [lookupA, List.cons_append] at h ⊢
    split_ifs with hi
    · rw [if_pos hi] at h; exact h
    · rw [if_neg hi] at h; exact ih h

theorem lookupA_append_of_none {α : Type} {l1 : List (Nat × α)} {id : Nat}
    (h : lookupA l1 id = none) (l2 : List (Nat × α)) :
    lookupA (l1 ++ l2) id = lookupA l2 id := by
  induction l1 with
  | nil => rfl
  | cons p rest ih =>
    obtain ⟨i, a⟩ := p
    simp only [lookupA, List.cons_append] at h ⊢
    split_ifs with hi
    · rw [if_pos hi] at h; exact absurd h (by simp)
    · rw [if_neg hi] at h; exact ih h

theorem lookup_reconPairs_of_isSome :
    ∀ (ps : List (String × Artwork)) (acc : Catalog × ProvMap) (id : Nat) (x : Artwork),
      lookupA acc.1 id = some x → lookupA (reconPairs acc ps).1 id = some x := by
  intro ps
  induction ps with
  | nil => intro acc id x h; exact h
  | cons p rest ih =>
    rintro ⟨cat, prov⟩ id x h
    obtain ⟨f, a⟩ := p
    simp only [reconPairs, reconStep]
    cases ha : a.art_id with
    | none => exact ih _ _ _ h
    | some j =>
      simp only []
      by_cases hj : (lookupA cat j).isSome
      · rw [if_pos hj]
        exact ih _ _ _ h
      · rw [if_neg hj]
        exact ih _ _ _ (lookupA_append_of_isSome h _)

theorem lookup_reconPairs_of_none :
    ∀ (ps : List (String × Artwork)) (acc : Catalog × ProvMap) (id : Nat),
      lookupA acc.1 id = none →
      lookupA (reconPairs acc ps).1 id
        = (ps.map Prod.snd).find? (fun a => decide (a.art_id = some id)) := by
  intro ps
  induction ps with
  | nil => intro acc id h; exact h
  | cons p rest ih =>
    rintro ⟨cat, prov⟩ id h
    obtain ⟨f, a⟩ := p
    simp only [reconPairs, reconStep, List.map_cons]
    cases ha : a.art_id with
    | none =>
      rw [List.find?_cons_of_neg _ (by simp [ha])]
      exact ih _ _ h
    | some j =>
      by_cases hji : j = id
      · subst hji
        rw [List.find?_cons_of_pos _ (by simp [ha])]
        have hcat : lookupA cat j = none := h
        simp only [hcat, Option.isSome_none, Bool.false_eq_true, if_false]
        refine lookup_reconPairs_of_isSome rest _ j a ?_
        show lookupA (cat ++ [(j, a)]) j = some a
        rw [lookupA_append_of_none hcat]
        simp [lookupA]
      · rw [List.find?_cons_of_neg _ (by simp [ha, hji])]
        simp only []
        by_cases hj : (lookupA cat j).isSome
        · rw [if_pos hj]
          exact ih _ _ h
        · rw [if_neg hj]
          refine ih _ _ ?_
          show lookupA (cat ++ [(j, a)]) id = none
          rw [lookupA_append_of_none h]
          simp [lookupA, hji]

/-- C5: the Catalog built by the Reconciler maps every id to the payload
of its first-processed occurrence in the concatenated batch stream;
later occurrences of the same id never change the stored record. -/
theorem catalog_first_occurrence (bs : List (String × List Artwork)) (id : Nat) :
    lookupA (process_search_folders bs).1 id
      = (bs.flatMap Prod.snd).find? (fun a => decide (a.art_id = some id)) := by
  rw [process_eq_pairs,
    lookup_reconPairs_of_none (bs.flatMap fun b => b.2.map (fun a => (b.1, a)))
      (([], []) : Catalog × ProvMap) id rfl]
  congr 1
  simp [List.map_flatMap, List.map_map, Function.comp_def]

theorem lookupA_isSome_iff_mem {α : Type} :
    ∀ (l : List (Nat × α)) (id : Nat),
      (lookupA l id).isSome ↔ id ∈ l.map Prod.fst := by
  intro l
  induction l with
  | nil => intro id; simp [lookupA]
  | cons p rest ih =>
    intro id
    obtain ⟨i, a⟩ := p
    simp only [lookupA, List.map_cons, List.mem_cons]
    split_ifs with hi
    · simp [hi]
    · rw [ih]
      simp [Ne.symm hi]

theorem provInsert_keys :
    ∀ (prov : ProvMap) (id : Nat) (f : String),
      (provInsert prov id f).map Prod.fst
        = if (lookupA prov id).isSome then prov.map Prod.fst
          else prov.map Prod.fst ++ [id] := by
  intro prov
  induction prov with
  | nil => intro id f; simp [provInsert, lookupA]
  | cons p rest ih =>
    intro id f
    obtain ⟨i, fs⟩ := p
    simp only [provInsert, lookupA]
    by_cases hi : i = id
    · subst hi
      simp
    · simp only [if_neg hi, List.map_cons, ih]
      split_ifs
      · simp
      · simp

theorem reconPairs_keys :
    ∀ (ps : List (String × Artwork)) (acc : Catalog × ProvMap),
      acc.1.map Prod.fst = acc.2.map Prod.fst →
      (reconPairs acc ps).1.map Prod.fst = (reconPairs acc ps).2.map Prod.fst := by
  intro ps
  induction ps with
  | nil => intro acc h; exact h
  | cons p rest ih =>
    rintro ⟨cat, prov⟩ h
    obtain ⟨f, a⟩ := p
    simp only [reconPairs, reconStep]
    cases ha : a.art_id with
    | none => exact ih _ h
    | some j =>
      simp only []
      refine ih _ ?_
      show (if (lookupA cat j).isSome then cat else cat ++ [(j, a)]).map Prod.fst
        = (provInsert prov j f).map Prod.fst
      rw [provInsert_keys]
      have hiff : (lookupA cat j).isSome ↔ (lookupA prov j).isSome := by
        rw [lookupA_isSome_iff_mem, lookupA_isSome_iff_mem, h]
      by_cases hj : (lookupA cat j).isSome
      · rw [if_pos hj, if_pos (hiff.mp hj), h]
      · rw [if_neg hj, if_neg (fun hp => hj (hiff.mpr hp)), List.map_append, h]
        rfl

/-- C10: after every Reconciler run, the Catalog and the provenance map
have exactly the same key set: an id is a Catalog key iff it is a
provenance key (both are inserted in the same loop iteration, and items
lacking an id reach neither). -/
theorem catalog_prov_same_keys (bs : List (String × List Artwork)) (id : Nat) :
    (lookupA (process_search_folders bs).1 id).isSome
      ↔ (lookupA (process_search_folders bs).2 id).isSome := by
  rw [lookupA_isSome_iff_mem, lookupA_isSome_iff_mem, process_eq_pairs,
    reconPairs_keys _ (([], []) : Catalog × ProvMap) rfl]

end VectorStock
